import Mathlib

/-!
Verification development for the dependency-tracked lazy-value cache of the
spike-based-sampling repository (src/meta.py, class `DependsOn` and the
`HasDependencies` decorator) and its application in `BoltzmannMachine`
(src/network.py): dual-representation weight/bias nodes, selection subset and
distribution nodes.

The Python descriptor stores, per instance and per decorated attribute, a
cached value in the attribute `_<name>`; the sentinel for an absent / stale
slot is the Python value `None`.  We embed an instance's cache as a total map
from node identifiers to `Option V` (`none` = absent), the static dependency
wiring as a record of forward "influence" edges (the `_influences` lists built
by `_propagate_dependencies`), and each node's `_func` as a function of the
instance state and the optional explicit `value` argument, mirroring
`def attr(self, value=None)`.

The recursive `DependsOn.wipe` terminates in Python because wiping is
idempotent: a non-forced wipe of an already-absent slot returns immediately.
We embed it with an explicit fuel parameter (`wipeF`) and prove that the
result is independent of the fuel once the fuel exceeds the number of present
slots, which is the termination statement for the fueled embedding; `wipe`
runs `wipeF` at a provably sufficient fuel.

One deliberate simplification, stated here once: in Python, a compute
function reads its dependencies through attribute access, so reading an
absent dependency would recursively fill that dependency's slot as a side
effect (and reading a dual-representation node while both sides are absent
would not terminate).  Our embedded compute functions read the state
directly, so an absent dependency yields `none` instead of a nested fill;
all theorems below only exercise compute functions on states in which the
dependencies they read are present, where the two behaviours agree.
-/

namespace SbS

/-- State of one instance's cache: one slot per node, `none` = absent
(Python: `getattr(instance, "_" + name, None) is None`). -/
abbrev CState (ι V : Type) := ι → Option V

/-- Static wiring of one `HasDependencies` class: for each node, the list of
nodes that must be invalidated when it changes (the `_influences` list of
`DependsOn`, filled by `_propagate_dependencies`), and the node's `_func`,
which serves as getter (`value = none`) and setter (`value = some v`) at
once, exactly as in `def attr(self, value=None)`. -/
structure DepGraph (ι V : Type) where
  influences : ι → List ι
  func : ι → CState ι V → Option V → Option V

variable {ι V : Type}

/-- Embeds `DependsOn.needs_update` (meta.py:227-229): a slot needs updating
iff its cached value is `None`.  (The `isinstance` guard is always satisfied
for an instance of the decorated class and is dropped.) -/
def needs_update (st : CState ι V) (i : ι) : Bool :=
  (st i).isNone

/-- Fueled embedding of `DependsOn.wipe` (meta.py:215-225):
if the slot is already absent and the wipe is not forced, return unchanged
(`if self.needs_update(instance) and not force: return`); otherwise clear the
slot (`setattr(instance, self.value_name, None)`) and recursively wipe every
influence, non-forced, left to right.  The fuel only bounds the recursion
depth; `wipeF_fuel_le` below shows any fuel of at least `presentCount st + 2`
gives the same result. -/
def wipeF [DecidableEq ι] (g : DepGraph ι V) : ℕ → Bool → ι → CState ι V → CState ι V
  | 0, _, _, st => st
  | fuel + 1, force, i, st =>
    if needs_update st i ∧ force = false then st
    else (g.influences i).foldl (fun s j => wipeF g fuel false j s) (Function.update st i none)

/-- Number of present (cached) slots; used as the fuel bound for `wipeF`. -/
def presentCount [Fintype ι] (st : CState ι V) : ℕ :=
  (Finset.univ.filter fun i => (st i).isSome).card

/-- `DependsOn.wipe` run at a sufficient fuel.  `wipe g false i` is the
instance-level `wipe(name)` added by `HasDependencies` (meta.py:248-255,
default `force=False`); `wipe g true i` is the forced wipe performed by
`__set__`. -/
def wipe [DecidableEq ι] [Fintype ι] (g : DepGraph ι V) (force : Bool) (i : ι)
    (st : CState ι V) : CState ι V :=
  wipeF g (presentCount st + 2) force i st

/-- Embeds `DependsOn.__get__` (meta.py:178-186): if the slot needs an
update, invoke `self._func(instance)` and store the result, then return the
(possibly just filled) slot.  Returns the new state and the returned value. -/
def DepGraph.get [DecidableEq ι] (g : DepGraph ι V) (i : ι) (st : CState ι V) :
    CState ι V × Option V :=
  if needs_update st i then
    let st' := Function.update st i (g.func i st none)
    (st', st' i)
  else (st, st i)

/-- Embeds `DependsOn.__set__` (meta.py:188-192): first `wipe(instance,
force=True)`, then store `self._func(instance, value)` computed on the
post-wipe state. -/
def DepGraph.set [DecidableEq ι] [Fintype ι] (g : DepGraph ι V) (i : ι) (v : V)
    (st : CState ι V) : CState ι V :=
  let st₁ := wipe g true i st
  Function.update st₁ i (g.func i st₁ (some v))

/-- Instrumented `__get__`: additionally counts, per node, how many times its
`_func` has been invoked (the test-double counter of spec §8). -/
def DepGraph.getC [DecidableEq ι] (g : DepGraph ι V) (i : ι)
    (sc : CState ι V × (ι → ℕ)) : (CState ι V × (ι → ℕ)) × Option V :=
  if needs_update sc.1 i then
    let st' := Function.update sc.1 i (g.func i sc.1 none)
    ((st', Function.update sc.2 i (sc.2 i + 1)), st' i)
  else (sc, sc.1 i)

/-- Instrumented `__set__`: the written node's `_func` is invoked exactly
once (as setter); the wipe cascade invokes no compute function at all. -/
def DepGraph.setC [DecidableEq ι] [Fintype ι] (g : DepGraph ι V) (i : ι) (v : V)
    (sc : CState ι V × (ι → ℕ)) : CState ι V × (ι → ℕ) :=
  (g.set i v sc.1, Function.update sc.2 i (sc.2 i + 1))

/-- Embeds `DependsOn.__set__` when the compute function can raise (as
`_check_weight_matrix`'s shape `assert` does): the forced wipe runs first;
if `_func` then raises, the exception propagates to the caller and no value
is stored, leaving the instance in the post-wipe state. -/
def DepGraph.setTry [DecidableEq ι] [Fintype ι] {E : Type} (g : DepGraph ι V)
    (funcE : ι → CState ι V → Option V → Except E (Option V)) (i : ι) (v : V)
    (st : CState ι V) : Except E Unit × CState ι V :=
  let st₁ := wipe g true i st
  match funcE i st₁ (some v) with
  | .ok r => (.ok (), Function.update st₁ i r)
  | .error e => (.error e, st₁)

/-- One influence edge: `b` is registered in `a._influences`, i.e. `b`
declared a dependency on `a`. -/
@[reducible]
def Influences (g : DepGraph ι V) (a b : ι) : Prop :=
  b ∈ g.influences a

/-- `b` is `a` or transitively dependent on `a` (reachable along influence
edges). -/
def Reaches (g : DepGraph ι V) : ι → ι → Prop :=
  Relation.ReflTransGen (Influences g)

/-- `b` is transitively dependent on `a` (at least one influence edge). -/
def DependsTrans (g : DepGraph ι V) : ι → ι → Prop :=
  Relation.TransGen (Influences g)

/-- Cache-consistency invariant: every absent node has all of its dependents
absent (equivalently, a present node has all the dependencies it was derived
from present).  This is the state of affairs the invalidation cascade
re-establishes and on which its completeness relies. -/
def Consistent (g : DepGraph ι V) (st : CState ι V) : Prop :=
  ∀ i, st i = none → ∀ j ∈ g.influences i, st j = none

/-! ### The BoltzmannMachine node graph (src/network.py)

One node per `@meta.DependsOn`-decorated attribute of `BoltzmannMachine`. -/

/-- The fifteen `DependsOn` attributes of `BoltzmannMachine`. -/
inductive BMNode : Type
  | simName
  | weightsTheo
  | weightsBio
  | saturatingSynapsesEnabled
  | biasesTheo
  | biasesBio
  | delays
  | tsoParams
  | spikeData
  | orderedSpikes
  | selectedSamplerIdx
  | distMarginalSim
  | distJointSim
  | distMarginalTheo
  | distJointTheo
deriving DecidableEq, Fintype

/-- Spike data dictionary (`{"spiketrains": ..., "duration": ...}`): one
spike-time list per sampler plus the total duration. -/
structure SpikeData where
  spiketrains : List (List ℝ)
  duration : ℝ

/-- Values held by BoltzmannMachine cache slots, one constructor per payload
shape occurring in network.py (weight matrices, bias vectors, scalars, index
arrays, distribution arrays, strings, booleans, spike data, ordered spike
records, TSO parameter dictionaries). -/
inductive BMVal (ns : ℕ) : Type
  | mat : (Fin ns → Fin ns → ℝ) → BMVal ns
  | vec : (Fin ns → ℝ) → BMVal ns
  | scalar : ℝ → BMVal ns
  | idx : List ℕ → BMVal ns
  | dist : List ℝ → BMVal ns
  | strV : String → BMVal ns
  | boolV : Bool → BMVal ns
  | spikes : SpikeData → BMVal ns
  | ospikes : List (ℕ × ℝ) → BMVal ns
  | tsoPar : List (String × ℝ) → BMVal ns

/-- External collaborators of the network model, abstracted exactly where the
repository code is outside src/ or declared external by the spec (§1, §6):
the per-sampler calibrated conversion curves (samplers.py), the per-sampler
bias values held by the sampler objects, the combinatorial distribution
solvers (cutils), and the spike-ordering helper (utils).  The per-sampler
weight conversions act on one column vector, as in
`sampler.convert_weights_bio_to_theo(weights[:, j])`. -/
structure BMEnv (ns : ℕ) where
  convTheoToBio : Fin ns → (Fin ns → ℝ) → Fin ns → ℝ
  convBioToTheo : Fin ns → (Fin ns → ℝ) → Fin ns → ℝ
  samplerBiasTheo : Fin ns → ℝ
  samplerBiasBio : Fin ns → ℝ
  margSolver : List (List ℝ) → List ℝ → List ℝ
  jointSolver : List (List ℝ) → List ℝ → List ℝ
  simMarginal : SpikeData → List ℕ → List ℝ
  simJoint : List (ℕ × ℝ) → List ℕ → SpikeData → List ℝ
  orderSpikes : SpikeData → List (ℕ × ℝ)

variable {ns : ℕ}

/-- Embeds `BoltzmannMachine.convert_weights_bio_to_theo` (network.py:273-278):
`conv_weights[:, j] = sampler_j.convert_weights_bio_to_theo(weights[:, j])`,
column by column (the column index is the target neuron). -/
def convert_weights_bio_to_theo (env : BMEnv ns) (weights : Fin ns → Fin ns → ℝ) :
    Fin ns → Fin ns → ℝ :=
  fun i j => env.convBioToTheo j (fun r => weights r j) i

/-- Embeds `BoltzmannMachine.convert_weights_theo_to_bio` (network.py:280-286). -/
def convert_weights_theo_to_bio (env : BMEnv ns) (weights : Fin ns → Fin ns → ℝ) :
    Fin ns → Fin ns → ℝ :=
  fun i j => env.convTheoToBio j (fun r => weights r j) i

/-- The shape-correct tail of `_check_weight_matrix` (network.py:724-737):
`utils.fill_diagonal(weights, 0.)` — the diagonal is forced to zero.
Modelled from the spec for the helper itself: `utils.py` is not under src/;
spec §4.3 says the setter must "zero the diagonal". -/
def checkWeightMatrixShaped (weights : Fin ns → Fin ns → ℝ) : Fin ns → Fin ns → ℝ :=
  fun i j => if i = j then 0 else weights i j

/-- The `_influences` lists of the BoltzmannMachine nodes, i.e. the reverse
of the declared `@meta.DependsOn(...)` dependency lists in network.py. -/
def bmInfluences : BMNode → List BMNode
  | .simName => []
  | .weightsTheo => [.weightsBio, .distMarginalTheo, .distJointTheo]
  | .weightsBio => [.weightsTheo]
  | .saturatingSynapsesEnabled => []
  | .biasesTheo => [.biasesBio, .distMarginalTheo, .distJointTheo]
  | .biasesBio => [.biasesTheo]
  | .delays => []
  | .tsoParams => []
  | .spikeData => [.orderedSpikes, .distMarginalSim, .distJointSim]
  | .orderedSpikes => []
  | .selectedSamplerIdx => [.distMarginalSim, .distJointSim, .distMarginalTheo, .distJointTheo]
  | .distMarginalSim => []
  | .distJointSim => []
  | .distMarginalTheo => []
  | .distJointTheo => []

/-- Embeds `np.array(list(set(selected_sampler_idx)), dtype=np.int)`
(network.py:423-425).  Modelled from CPython 2 semantics for the regime the
network exercises (small non-negative sampler indices, `hash(i) = i`): the
set deduplicates and iterates its slots in ascending value order, so the
stored array is the ascending list of the distinct indices. -/
def pySetList (xs : List ℕ) : List ℕ :=
  List.insertionSort (· ≤ ·) xs.dedup

/-- Restriction `biases[ssi]` of a bias vector to the selected index list
(numpy fancy indexing; an out-of-range index would raise, the padding value
is never exercised because stored selections are valid sampler indices). -/
def restrictVec (b : Fin ns → ℝ) (ssi : List ℕ) : List ℝ :=
  ssi.map fun i => if h : i < ns then b ⟨i, h⟩ else 0

/-- Restriction `weights[ssi][:, ssi]` of a weight matrix to the selected
rows and columns, preserving the order of the selection list. -/
def restrictMat (w : Fin ns → Fin ns → ℝ) (ssi : List ℕ) : List (List ℝ) :=
  ssi.map fun i => ssi.map fun j =>
    if h : i < ns ∧ j < ns then w ⟨i, h.1⟩ ⟨j, h.2⟩ else 0

/-- Prefix added by the `sim_name` node. -/
def pynnPrefixStr : String := "pyNN."

/-- Key "U" of the default TSO parameter dictionary. -/
def tsoUKey : String := "U"

/-- Key "u" of the default TSO parameter dictionary. -/
def tsoLowerUKey : String := "u"

/-- The compute functions (`_func`) of the BoltzmannMachine nodes
(network.py).  `value = none` is the getter branch, `value = some v` the
setter branch, exactly as `def attr(self, value=None)`.  A `none` result in
a getter branch marks the cases where the Python code would raise or recurse
on an absent dependency (see the file header); no theorem exercises them.
Node by node:
* `sim_name` (188-195): prepend the pyNN prefix if missing.
* `weights_theo` (197-214): setter `_check_weight_matrix` (scalar broadcast
  plus zeroed diagonal); getter `convert_weights_bio_to_theo(weights_bio)`.
* `weights_bio` (216-233): symmetric.
* `saturating_synapses_enabled` (235-241): pass-through boolean.
* `biases_theo` (243-256): getter reads `s.bias_theo` off every sampler;
  the setter branch writes into the samplers and falls off the end of the
  function, i.e. it RETURNS NONE, so nothing is cached.
* `biases_bio` (258-271): symmetric.
* `delays` (288-302): scalar is broadcast to a full matrix.
* `tso_params` (304-319): getter returns the default `{"U": 1., "u": 1.}`.
* `spike_data` (391-402): setter passes the dictionary through (its two
  `assert`ed keys are part of the `SpikeData` structure); getter returns
  None — "We are requesting data when there is None".
* `ordered_spikes` (418-421): orders the spike trains of `spike_data`.
* `selected_sampler_idx` (423-425): `np.array(list(set(...)))`.
* `dist_marginal_sim` / `dist_joint_sim` (427-457): delegate to the
  empirical solvers on `spike_data` (and `ordered_spikes`) restricted to
  the selection.
* `dist_marginal_theo` / `dist_joint_theo` (459-491): restrict
  `weights_theo` / `biases_theo` to `selected_sampler_idx` and delegate to
  the theoretical solvers. -/
def bmFunc (env : BMEnv ns) : BMNode → CState BMNode (BMVal ns) → Option (BMVal ns) →
    Option (BMVal ns)
  | .simName, _, some (.strV s) =>
      some (.strV (if s.startsWith pynnPrefixStr then s else pynnPrefixStr ++ s))
  | .simName, _, _ => none
  | .weightsTheo, _, some (.mat w) => some (.mat (checkWeightMatrixShaped w))
  | .weightsTheo, _, some (.scalar r) =>
      some (.mat (checkWeightMatrixShaped fun _ _ => r))
  | .weightsTheo, st, none =>
      match st .weightsBio with
      | some (.mat wb) => some (.mat (convert_weights_bio_to_theo env wb))
      | _ => none
  | .weightsTheo, _, _ => none
  | .weightsBio, _, some (.mat w) => some (.mat (checkWeightMatrixShaped w))
  | .weightsBio, _, some (.scalar r) =>
      some (.mat (checkWeightMatrixShaped fun _ _ => r))
  | .weightsBio, st, none =>
      match st .weightsTheo with
      | some (.mat wt) => some (.mat (convert_weights_theo_to_bio env wt))
      | _ => none
  | .weightsBio, _, _ => none
  | .saturatingSynapsesEnabled, _, some (.boolV b) => some (.boolV b)
  | .saturatingSynapsesEnabled, _, _ => none
  | .biasesTheo, _, none => some (.vec fun i => env.samplerBiasTheo i)
  | .biasesTheo, _, some _ => none
  | .biasesBio, _, none => some (.vec fun i => env.samplerBiasBio i)
  | .biasesBio, _, some _ => none
  | .delays, _, some (.scalar d) => some (.mat fun _ _ => d)
  | .delays, _, some (.mat m) => some (.mat m)
  | .delays, _, _ => none
  | .tsoParams, _, none => some (.tsoPar [(tsoUKey, 1), (tsoLowerUKey, 1)])
  | .tsoParams, _, some p => some p
  | .spikeData, _, some (.spikes sd) => some (.spikes sd)
  | .spikeData, _, _ => none
  | .orderedSpikes, st, none =>
      match st .spikeData with
      | some (.spikes sd) => some (.ospikes (env.orderSpikes sd))
      | _ => none
  | .orderedSpikes, _, some _ => none
  | .selectedSamplerIdx, _, some (.idx xs) => some (.idx (pySetList xs))
  | .selectedSamplerIdx, _, _ => none
  | .distMarginalSim, st, none =>
      match st .spikeData, st .selectedSamplerIdx with
      | some (.spikes sd), some (.idx ssi) => some (.dist (env.simMarginal sd ssi))
      | _, _ => none
  | .distMarginalSim, _, some _ => none
  | .distJointSim, st, none =>
      match st .orderedSpikes, st .selectedSamplerIdx, st .spikeData with
      | some (.ospikes os), some (.idx ssi), some (.spikes sd) =>
          some (.dist (env.simJoint os ssi sd))
      | _, _, _ => none
  | .distJointSim, _, some _ => none
  | .distMarginalTheo, st, none =>
      match st .selectedSamplerIdx, st .biasesTheo, st .weightsTheo with
      | some (.idx ssi), some (.vec b), some (.mat w) =>
          some (.dist (env.margSolver (restrictMat w ssi) (restrictVec b ssi)))
      | _, _, _ => none
  | .distMarginalTheo, _, some _ => none
  | .distJointTheo, st, none =>
      match st .selectedSamplerIdx, st .biasesTheo, st .weightsTheo with
      | some (.idx ssi), some (.vec b), some (.mat w) =>
          some (.dist (env.jointSolver (restrictMat w ssi) (restrictVec b ssi)))
      | _, _, _ => none
  | .distJointTheo, _, some _ => none

/-- The BoltzmannMachine dependency graph: the influence wiring together
with the node compute functions. -/
def bmGraph (env : BMEnv ns) : DepGraph BMNode (BMVal ns) :=
  ⟨bmInfluences, bmFunc env⟩

/-! ### Shape checking of weight inputs (`_check_weight_matrix`, fallible) -/

/-- A numpy array of arbitrary shape, as passed to `_check_weight_matrix`
before the shape assertion; entries beyond the shape are irrelevant. -/
structure Arr2 where
  rows : ℕ
  cols : ℕ
  entry : ℕ → ℕ → ℝ

/-- A weight argument: either a scalar (`len(weights.shape) == 0`, broadcast
to the full matrix) or an array. -/
inductive WeightsArg : Type
  | scalarW : ℝ → WeightsArg
  | arrW : Arr2 → WeightsArg

/-- Python exceptions occurring in the modelled paths. -/
inductive PyExn : Type
  | assertionError
  | attributeError
deriving DecidableEq

/-- `utils.fill_diagonal` on a raw array (modelled from the spec: utils.py is
not under src/; the spec says the diagonal is forced to the given value). -/
def fillDiagonal (a : Arr2) (v : ℝ) : Arr2 :=
  ⟨a.rows, a.cols, fun i j => if i = j then v else a.entry i j⟩

/-- Embeds `BoltzmannMachine._check_weight_matrix` (network.py:724-737):
broadcast a scalar to `(num_samplers, num_samplers)`; `assert weights.shape
== expected_shape` (an `AssertionError` — the spec's `ShapeError` — when the
shape does not match the sampler count); then zero the diagonal. -/
def _check_weight_matrix (num_samplers : ℕ) (weights : WeightsArg) :
    Except PyExn Arr2 :=
  match weights with
  | .scalarW r => .ok (fillDiagonal ⟨num_samplers, num_samplers, fun _ _ => r⟩ 0)
  | .arrW a =>
    if a.rows = num_samplers ∧ a.cols = num_samplers then .ok (fillDiagonal a 0)
    else .error .assertionError

/-- The fallible compute function of a weight node over raw arrays: the
setter branch runs `_check_weight_matrix`; the getter branch is not
exercised by the shape-error theorems. -/
def weightsFuncE (num_samplers : ℕ) :
    CState (Fin 2) Arr2 → Option Arr2 → Except PyExn (Option Arr2) :=
  fun _ value =>
    match value with
    | some a => (_check_weight_matrix num_samplers (.arrW a)).map some
    | none => .ok none

/-- Embeds the write loop of the `biases_theo` / `biases_bio` setter
branches (network.py:253-256 and 268-271): `for b, sampler in
it.izip(biases, self.samplers): sampler.bias_theo = b`.  Takes the written
vector and the samplers' current per-sampler biases and returns the
samplers' biases after the loop.  `izip` stops at the shorter sequence, so
the setter performs no shape check of any kind: a too-long vector has its
extra entries silently ignored, a too-short one silently leaves the
remaining samplers' old biases in place. -/
def biases_setter_izip : List ℝ → List ℝ → List ℝ
  | _, [] => []
  | [], s => s
  | b :: bs, _ :: ss => b :: biases_setter_izip bs ss

/-- The fallible compute function of a bias node over raw vectors
(network.py:243-256): the setter branch performs the izip writes into the
sampler objects (their effect on the per-sampler biases is
`biases_setter_izip`) and then falls off the end of the function — it
returns None and raises nothing, for a written vector of any length; the
getter branch reads the per-sampler biases back from the samplers. -/
def biasesFuncE (samplers : List ℝ) :
    CState (Fin 2) (List ℝ) → Option (List ℝ) → Except PyExn (Option (List ℝ)) :=
  fun _ value =>
    match value with
    | some _ => .ok none
    | none => .ok (some samplers)

/-! ### Dependency binding across the class hierarchy
(`DependsOn._propagate_dependencies`, meta.py:194-213) -/

/-- A Python class for the purposes of dependency binding: the names of the
`DependsOn` descriptors in its own `__dict__`, and its base classes. -/
inductive PyClass : Type
  | mk : List String → List PyClass → PyClass

/-- Descriptor names declared directly on the class. -/
def PyClass.decls : PyClass → List String
  | .mk d _ => d

/-- Base classes. -/
def PyClass.bases : PyClass → List PyClass
  | .mk _ b => b

/-- The dependency search loop of `_propagate_dependencies`:
`to_search = [klass]; while to_search: k = to_search.pop(0);
if dep in k.__dict__: ... break; else: to_search.extend(k.__bases__)` —
a breadth-first walk of the ancestor chain; returns whether some class in
the chain declares the dependency (in the source, the first hit also gets
the current descriptor appended to its `_influences`; only found/not-found
matters for the binding-failure behaviour). -/
def searchDepHits (dep : String) : List PyClass → Bool
  | [] => false
  | k :: to_search =>
    if dep ∈ k.decls then true
    else searchDepHits dep (to_search ++ k.bases)
termination_by l => (l.map sizeOf).sum
decreasing_by
  simp only [List.map_append, List.sum_append, List.map_cons, List.sum_cons]
  have hb : ((k.bases).map sizeOf).sum < sizeOf k := by
    cases k with
    | mk d b =>
      simp only [PyClass.bases, PyClass.mk.sizeOf_spec]
      have : ∀ l : List PyClass, (l.map sizeOf).sum < sizeOf l := by
        intro l
        induction l with
        | nil => simp
        | cons x xs ih => simp only [List.map_cons, List.sum_cons, List.cons.sizeOf_spec]; omega
      have := this b
      omega
  omega

/-- The `for dep in self._dependencies` loop of `_propagate_dependencies`
(meta.py:199-211).  When the breadth-first search exhausts the ancestor
chain without a hit, the `while` loop's `else:` branch runs
`log.error("Could not add dependency {} for class {}.".format(dep.__name__,
klass.__name__))` — but `dep` is a `str`, which has no `__name__`
attribute, so this statement itself raises `AttributeError`, aborting the
binding pass (and hence the `HasDependencies` class decoration) instead of
continuing past the missing dependency. -/
def propagateDeps (deps : List String) (klass : PyClass) : Except PyExn Unit :=
  match deps with
  | [] => .ok ()
  | dep :: rest =>
    if searchDepHits dep [klass] then propagateDeps rest klass
    else .error .attributeError

/-! ### Concrete objects used to instantiate the theorems -/

/-- A diamond dependent graph: node 0 influences 1 and 2, which both
influence 3 (two nodes depend on `A`, a third depends on both). -/
def dmdGraph : DepGraph (Fin 4) ℕ :=
  ⟨fun i => if i = 0 then [1, 2] else if i = 1 then [3] else if i = 2 then [3] else [],
   fun _ _ v => v⟩

/-- Fully cached state on the diamond graph. -/
def dmdState : CState (Fin 4) ℕ := fun _ => some 0

/-- A single node whose compute function returns `None` (the `spike_data`
pattern: no data gathered yet). -/
def noneFuncGraph : DepGraph (Fin 1) ℕ :=
  ⟨fun _ => [], fun _ _ _ => none⟩

/-- A single node whose compute function returns a proper value. -/
def constFuncGraph : DepGraph (Fin 1) ℕ :=
  ⟨fun _ => [], fun _ _ _ => some 7⟩

/-- Two-node graph for the shape-error scenario: node 0 is the weight node,
node 1 depends on it. -/
def c2Graph : DepGraph (Fin 2) Arr2 :=
  ⟨fun i => if i = 0 then [1] else [], fun _ _ v => v⟩

/-- A correctly shaped 2x2 zero array. -/
def zeros22 : Arr2 := ⟨2, 2, fun _ _ => 0⟩

/-- A 3x3 array: the wrong shape for a 2-sampler network. -/
def badArr33 : Arr2 := ⟨3, 3, fun _ _ => 0⟩

/-- State on `c2Graph` in which both the weight node and its dependent hold
cached values. -/
def c2State : CState (Fin 2) Arr2 := fun _ => some zeros22

/-- Two-node graph for the bias scenario over raw vectors: node 0 is the
bias node, node 1 depends on it (as `biases_bio` and the theoretical
distribution nodes depend on `biases_theo`). -/
def biasGraph : DepGraph (Fin 2) (List ℝ) :=
  ⟨fun i => if i = 0 then [1] else [], fun _ _ v => v⟩

/-- State on `biasGraph` in which both nodes hold cached values, on a
two-sampler network. -/
def biasState : CState (Fin 2) (List ℝ) := fun _ => some [0, 0]

/-- Identity environment: per-sampler conversions are the identity, sampler
biases are zero, the solvers return the empty distribution. -/
def idBMEnv (n : ℕ) : BMEnv n :=
  ⟨fun _ v => v, fun _ v => v, fun _ => 0, fun _ => 0,
   fun _ _ => [], fun _ _ => [], fun _ _ => [], fun _ _ _ => [], fun _ => []⟩

/-- One-sampler state with biases and selection cached (as after reading
them on a fresh network), weights not yet written. -/
def bmStateC1 : CState BMNode (BMVal 1) := fun n =>
  match n with
  | .biasesTheo => some (.vec fun _ => 0)
  | .selectedSamplerIdx => some (.idx [0])
  | _ => none

/-- Five-sampler state with weights and biases cached. -/
def bmStateC8 : CState BMNode (BMVal 5) := fun n =>
  match n with
  | .weightsTheo => some (.mat fun _ _ => 0)
  | .biasesTheo => some (.vec fun _ => 0)
  | _ => none

/-- Empty cache over one sampler. -/
def bmStateEmpty : CState BMNode (BMVal 1) := fun _ => none

/-- A class declaring only `weights_theo`, used to exhibit the binding
failure on a dependency name declared nowhere. -/
def pyClassW : PyClass := .mk ["weights_theo"] []

/-! ## Lemmas about the wipe cascade -/

/-- The fold of non-forced recursive wipes over an influence list. -/
def wipeFold [DecidableEq ι] (g : DepGraph ι V) (fuel : ℕ) (l : List ι)
    (st : CState ι V) : CState ι V :=
  l.foldl (fun s j => wipeF g fuel false j s) st

theorem wipeF_succ [DecidableEq ι] (g : DepGraph ι V) (fuel : ℕ) (force : Bool)
    (i : ι) (st : CState ι V) :
    wipeF g (fuel + 1) force i st =
      if needs_update st i ∧ force = false then st
      else wipeFold g fuel (g.influences i) (Function.update st i none) := rfl

theorem wipeFold_nil [DecidableEq ι] (g : DepGraph ι V) (fuel : ℕ) (st : CState ι V) :
    wipeFold g fuel [] st = st := rfl

theorem wipeFold_cons [DecidableEq ι] (g : DepGraph ι V) (fuel : ℕ) (j : ι)
    (l : List ι) (st : CState ι V) :
    wipeFold g fuel (j :: l) st = wipeFold g fuel l (wipeF g fuel false j st) := rfl

/-- A wipe only clears slots: each slot ends `none` or keeps its value. -/
theorem wipeF_mono [DecidableEq ι] (g : DepGraph ι V) :
    ∀ (fuel : ℕ) (force : Bool) (i : ι) (st : CState ι V) (k : ι),
      wipeF g fuel force i st k = none ∨ wipeF g fuel force i st k = st k := by
  intro fuel
  induction fuel with
  | zero => intro force i st k; right; rfl
  | succ fuel IH =>
    have hfold : ∀ (l : List ι) (st : CState ι V) (k : ι),
        wipeFold g fuel l st k = none ∨ wipeFold g fuel l st k = st k := by
      intro l
      induction l with
      | nil => intro st k; right; rfl
      | cons j t iht =>
        intro st k
        rw [wipeFold_cons]
        rcases iht (wipeF g fuel false j st) k with h | h
        · left; exact h
        · rw [h]; exact IH false j st k
    intro force i st k
    rw [wipeF_succ]
    split
    · right; rfl
    · rcases hfold (g.influences i) (Function.update st i none) k with h | h
      · left; exact h
      · rw [h]
        by_cases hk : k = i
        · subst hk; left; simp
        · right; rw [Function.update_noteq hk]

/-- Fold version of `wipeF_mono`. -/
theorem wipeFold_mono [DecidableEq ι] (g : DepGraph ι V) :
    ∀ (fuel : ℕ) (l : List ι) (st : CState ι V) (k : ι),
      wipeFold g fuel l st k = none ∨ wipeFold g fuel l st k = st k := by
  intro fuel l
  induction l with
  | nil => intro st k; right; rfl
  | cons j t iht =>
    intro st k
    rw [wipeFold_cons]
    rcases iht (wipeF g fuel false j st) k with h | h
    · left; exact h
    · rw [h]; exact wipeF_mono g fuel false j st k

/-- An absent slot stays absent through a wipe. -/
theorem wipeF_none [DecidableEq ι] (g : DepGraph ι V) (fuel : ℕ) (force : Bool)
    (i : ι) (st : CState ι V) (k : ι) (h : st k = none) :
    wipeF g fuel force i st k = none := by
  rcases wipeF_mono g fuel force i st k with h' | h'
  · exact h'
  · rw [h', h]

/-- An absent slot stays absent through a wipe fold. -/
theorem wipeFold_none [DecidableEq ι] (g : DepGraph ι V) (fuel : ℕ) (l : List ι)
    (st : CState ι V) (k : ι) (h : st k = none) :
    wipeFold g fuel l st k = none := by
  rcases wipeFold_mono g fuel l st k with h' | h'
  · exact h'
  · rw [h', h]

theorem presentCount_le_of_pointwise [DecidableEq ι] [Fintype ι]
    {st st' : CState ι V} (h : ∀ k, st' k = none ∨ st' k = st k) :
    presentCount st' ≤ presentCount st := by
  apply Finset.card_le_card
  intro x hx
  simp only [Finset.mem_filter, Finset.mem_univ, true_and] at hx ⊢
  rcases h x with h' | h'
  · rw [h'] at hx; simp at hx
  · rwa [h'] at hx

theorem presentCount_wipeF_le [DecidableEq ι] [Fintype ι] (g : DepGraph ι V)
    (fuel : ℕ) (force : Bool) (i : ι) (st : CState ι V) :
    presentCount (wipeF g fuel force i st) ≤ presentCount st :=
  presentCount_le_of_pointwise (wipeF_mono g fuel force i st)

theorem presentCount_update_none_le [DecidableEq ι] [Fintype ι]
    (st : CState ι V) (i : ι) :
    presentCount (Function.update st i none) ≤ presentCount st := by
  apply presentCount_le_of_pointwise
  intro k
  by_cases hk : k = i
  · subst hk; left; simp
  · right; rw [Function.update_noteq hk]

theorem presentCount_update_none_lt [DecidableEq ι] [Fintype ι]
    (st : CState ι V) (i : ι) (h : st i ≠ none) :
    presentCount (Function.update st i none) < presentCount st := by
  apply Finset.card_lt_card
  rw [Finset.ssubset_iff_of_subset]
  · refine ⟨i, ?_, ?_⟩
    · simp only [Finset.mem_filter, Finset.mem_univ, true_and]
      exact Option.ne_none_iff_isSome.mp h
    · simp
  · intro x hx
    simp only [Finset.mem_filter, Finset.mem_univ, true_and] at hx ⊢
    by_cases hxi : x = i
    · subst hxi; simp at hx
    · rwa [Function.update_noteq hxi] at hx

/-- After any wipe with at least one unit of fuel, the wiped node's own
slot is absent. -/
theorem wipeF_self [DecidableEq ι] (g : DepGraph ι V) (fuel : ℕ) (force : Bool)
    (i : ι) (st : CState ι V) :
    wipeF g (fuel + 1) force i st i = none := by
  rw [wipeF_succ]
  split
  · next h => exact Option.isNone_iff_eq_none.mp h.1
  · apply wipeFold_none; simp

/-- Every member of the influence worklist ends absent. -/
theorem wipeFold_mem [DecidableEq ι] (g : DepGraph ι V) (fuel : ℕ) :
    ∀ (l : List ι) (st : CState ι V) (k : ι), k ∈ l →
      wipeFold g (fuel + 1) l st k = none := by
  intro l
  induction l with
  | nil => intro st k hk; cases hk
  | cons j t iht =>
    intro st k hk
    rw [wipeFold_cons]
    rcases List.mem_cons.mp hk with h | h
    · subst h; exact wipeFold_none _ _ _ _ _ (wipeF_self g fuel false k st)
    · exact iht _ _ h

/-- Frame property: a node not reachable from the wiped node along influence
edges is untouched. -/
theorem wipeF_frame [DecidableEq ι] (g : DepGraph ι V) {k : ι} :
    ∀ (fuel : ℕ) (force : Bool) (i : ι) (st : CState ι V),
      ¬ Reaches g i k → wipeF g fuel force i st k = st k := by
  intro fuel
  induction fuel with
  | zero => intro force i st _; rfl
  | succ fuel IH =>
    intro force i st h
    have hk : k ≠ i := fun e => h (e ▸ Relation.ReflTransGen.refl)
    rw [wipeF_succ]
    split
    · rfl
    · have hfold : ∀ (l : List ι) (s : CState ι V), (∀ j ∈ l, ¬ Reaches g j k) →
          wipeFold g fuel l s k = s k := by
        intro l
        induction l with
        | nil => intro s _; rfl
        | cons j t iht =>
          intro s hj
          rw [wipeFold_cons, iht _ (fun x hx => hj x (List.mem_cons_of_mem _ hx)),
            IH false j s (hj j (List.mem_cons_self j t))]
      rw [hfold _ _ ?_, Function.update_noteq hk]
      intro j hj hreach
      exact h (Relation.ReflTransGen.head hj hreach)

/-- Sufficient fuel for a wipe: one per present slot, plus one (plus one
more when forced, since a forced wipe of an absent slot recurses without
clearing anything). -/
def suffFuel [Fintype ι] (force : Bool) (st : CState ι V) (fuel : ℕ) : Prop :=
  presentCount st + cond force 2 1 ≤ fuel

/-- Key completeness lemma: any node the cascade clears has all of its
influences cleared as well by the time the cascade finishes (when a node is
set to `None`, the cascade immediately descends into every influence and
each ends absent; nothing is ever re-filled during a wipe). -/
theorem wipeF_wiped_influences [DecidableEq ι] [Fintype ι] (g : DepGraph ι V) :
    ∀ (fuel : ℕ) (force : Bool) (i : ι) (st : CState ι V),
      suffFuel force st fuel →
      ∀ k, st k ≠ none → wipeF g fuel force i st k = none →
      ∀ m ∈ g.influences k, wipeF g fuel force i st m = none := by
  intro fuel
  induction fuel with
  | zero =>
    intro force i st hfuel
    exfalso
    cases force <;> simp [suffFuel] at hfuel
  | succ fuel IH =>
    intro force i st hfuel k hk hwk m hm
    rw [wipeF_succ] at hwk ⊢
    split at hwk
    · exact absurd hwk hk
    · next hcond =>
      rw [if_neg hcond]
      have hfold : ∀ (l : List ι) (s : CState ι V), presentCount s + 1 ≤ fuel →
          ∀ k, s k ≠ none → wipeFold g fuel l s k = none →
          ∀ m ∈ g.influences k, wipeFold g fuel l s m = none := by
        intro l
        induction l with
        | nil => intro s _ k hk hwk; exact absurd hwk hk
        | cons j t iht =>
          intro s hs k hk hwk m hm
          rw [wipeFold_cons] at hwk ⊢
          by_cases h1 : wipeF g fuel false j s k = none
          · have hall := IH false j s (by simpa [suffFuel] using hs) k hk h1 m hm
            exact wipeFold_none _ _ _ _ _ hall
          · exact iht _ (le_trans (Nat.add_le_add_right
              (presentCount_wipeF_le g fuel false j s) 1) hs) k h1 hwk m hm
      have hfuel1 : 1 ≤ fuel := by
        rcases Nat.eq_zero_or_pos fuel with h0 | h1
        · exfalso
          subst h0
          cases force with
          | false =>
            have hpres : st i ≠ none := by
              intro hn
              exact hcond ⟨by simp [needs_update, hn], rfl⟩
            have : 1 ≤ presentCount st := by
              have : i ∈ Finset.univ.filter fun x => (st x).isSome := by
                simp [Option.ne_none_iff_isSome.mp hpres]
              have := Finset.card_pos.mpr ⟨i, this⟩
              exact this
            simp [suffFuel] at hfuel
            omega
          | true => simp [suffFuel] at hfuel
        · exact h1
      obtain ⟨fuel', rfl⟩ : ∃ f', fuel = f' + 1 := ⟨fuel - 1, by omega⟩
      by_cases hki : k = i
      · subst hki
        exact wipeFold_mem g fuel' (g.influences k) (Function.update st k none) m hm
      · apply hfold (g.influences i) (Function.update st i none) ?_ k
          (by rwa [Function.update_noteq hki]) hwk m hm
        cases force with
        | true =>
          have h2 : presentCount st + 1 ≤ fuel' + 1 := by
            simp only [suffFuel, cond] at hfuel
            omega
          exact le_trans (Nat.add_le_add_right (presentCount_update_none_le st i) 1) h2
        | false =>
          have hpres : st i ≠ none := by
            intro hn
            exact hcond ⟨by simp [needs_update, hn], rfl⟩
          have hlt := presentCount_update_none_lt st i hpres
          simp only [suffFuel, cond] at hfuel
          omega

/-- A wipe with sufficient fuel preserves cache consistency. -/
theorem wipeF_consistent [DecidableEq ι] [Fintype ι] (g : DepGraph ι V)
    (fuel : ℕ) (force : Bool) (i : ι) (st : CState ι V)
    (hc : Consistent g st) (hfuel : suffFuel force st fuel) :
    Consistent g (wipeF g fuel force i st) := by
  intro a ha m hm
  by_cases h0 : st a = none
  · exact wipeF_none g fuel force i st m (hc a h0 m hm)
  · exact wipeF_wiped_influences g fuel force i st hfuel a h0 ha m hm

/-- In a consistent state, everything reachable from an absent node is
absent. -/
theorem consistent_none_reach [DecidableEq ι] (g : DepGraph ι V)
    {st : CState ι V} {a b : ι} (hc : Consistent g st) (h0 : st a = none)
    (h : Reaches g a b) : st b = none := by
  induction h with
  | refl => exact h0
  | tail _ hlast ih => exact hc _ ih _ hlast

/-- Fuel-stability, one step: with sufficient fuel, one more unit of fuel
does not change the result.  This is the termination statement for the
fueled embedding of the recursive `wipe`. -/
theorem wipeF_fuel_succ [DecidableEq ι] [Fintype ι] (g : DepGraph ι V) :
    ∀ (fuel : ℕ) (force : Bool) (i : ι) (st : CState ι V),
      suffFuel force st fuel →
      wipeF g (fuel + 1) force i st = wipeF g fuel force i st := by
  intro fuel
  induction fuel with
  | zero =>
    intro force i st hfuel
    exfalso
    cases force <;> simp [suffFuel] at hfuel
  | succ fuel IH =>
    intro force i st hfuel
    rw [wipeF_succ, wipeF_succ]
    split
    · rfl
    · next hcond =>
      have hfold : ∀ (l : List ι) (s : CState ι V), presentCount s + 1 ≤ fuel →
          wipeFold g (fuel + 1) l s = wipeFold g fuel l s := by
        intro l
        induction l with
        | nil => intro s _; rfl
        | cons j t iht =>
          intro s hs
          rw [wipeFold_cons, wipeFold_cons, IH false j s (by simpa [suffFuel] using hs)]
          exact iht _ (le_trans (Nat.add_le_add_right
            (presentCount_wipeF_le g fuel false j s) 1) hs)
      apply hfold
      cases force with
      | true =>
        have h2 : presentCount st + 1 ≤ fuel := by
          simp only [suffFuel, cond] at hfuel
          omega
        exact le_trans (Nat.add_le_add_right (presentCount_update_none_le st i) 1) h2
      | false =>
        have hpres : st i ≠ none := by
          intro hn
          exact hcond ⟨by simp [needs_update, hn], rfl⟩
        have hlt := presentCount_update_none_lt st i hpres
        simp only [suffFuel, cond] at hfuel
        omega

/-- Any fuel of at least `presentCount st + 2` computes `wipe`. -/
theorem wipeF_fuel_le [DecidableEq ι] [Fintype ι] (g : DepGraph ι V)
    (force : Bool) (i : ι) (st : CState ι V) (fuel : ℕ)
    (h : presentCount st + 2 ≤ fuel) :
    wipeF g fuel force i st = wipe g force i st := by
  unfold wipe
  induction fuel, h using Nat.le_induction with
  | base => rfl
  | succ n hn ih =>
    rw [← ih]
    apply wipeF_fuel_succ
    cases force <;> simp only [suffFuel, cond] <;> omega

/-- After a wipe the wiped node's own slot is absent. -/
theorem wipe_self [DecidableEq ι] [Fintype ι] (g : DepGraph ι V) (force : Bool)
    (i : ι) (st : CState ι V) : wipe g force i st i = none :=
  wipeF_self g (presentCount st + 1) force i st

/-- After a forced wipe, every direct influence of the wiped node is absent. -/
theorem wipe_influences_none [DecidableEq ι] [Fintype ι] (g : DepGraph ι V)
    (i : ι) (st : CState ι V) {m : ι} (hm : m ∈ g.influences i) :
    wipe g true i st m = none := by
  unfold wipe
  rw [show presentCount st + 2 = (presentCount st + 1) + 1 from rfl, wipeF_succ]
  rw [if_neg (by simp)]
  rw [show presentCount st + 1 = presentCount st + 1 from rfl]
  exact wipeFold_mem g (presentCount st) (g.influences i) _ m hm

/-- Frame property of `wipe`. -/
theorem wipe_frame [DecidableEq ι] [Fintype ι] (g : DepGraph ι V) (force : Bool)
    (i : ι) (st : CState ι V) {k : ι} (h : ¬ Reaches g i k) :
    wipe g force i st k = st k :=
  wipeF_frame g _ force i st h

/-- A wipe preserves cache consistency. -/
theorem wipe_consistent [DecidableEq ι] [Fintype ι] (g : DepGraph ι V)
    (force : Bool) (i : ι) (st : CState ι V) (hc : Consistent g st) :
    Consistent g (wipe g force i st) := by
  apply wipeF_consistent g _ force i st hc
  cases force <;> simp only [suffFuel, cond] <;> omega

/-- The written node holds the value returned by its compute function
applied, as setter, to the post-wipe state. -/
theorem set_self [DecidableEq ι] [Fintype ι] (g : DepGraph ι V) (i : ι) (v : V)
    (st : CState ι V) :
    g.set i v st i = g.func i (wipe g true i st) (some v) := by
  simp [DepGraph.set]

/-- Frame property of `set`: nodes not reachable from the written node are
untouched. -/
theorem set_frame [DecidableEq ι] [Fintype ι] (g : DepGraph ι V) (i : ι) (v : V)
    (st : CState ι V) {k : ι} (h : ¬ Reaches g i k) :
    g.set i v st k = st k := by
  have hk : k ≠ i := fun e => h (e ▸ Relation.ReflTransGen.refl)
  simp [DepGraph.set, Function.update_noteq hk, wipe_frame g true i st h]

/-- Every direct influence of a written node is absent after the set. -/
theorem set_influences_none [DecidableEq ι] [Fintype ι] (g : DepGraph ι V)
    (i : ι) (v : V) (st : CState ι V) {m : ι} (hm : m ∈ g.influences i)
    (hmi : m ≠ i) : g.set i v st m = none := by
  simp [DepGraph.set, Function.update_noteq hmi, wipe_influences_none g i st hm]

/-- Completeness of the cascade started by a set: in a consistent state,
every transitive dependent of the written node is absent afterwards. -/
theorem set_dependents_none [DecidableEq ι] [Fintype ι] (g : DepGraph ι V)
    (i : ι) (v : V) (st : CState ι V) (hc : Consistent g st) {B : ι}
    (hBi : B ≠ i) (h : DependsTrans g i B) : g.set i v st B = none := by
  have h1 : wipe g true i st B = none :=
    consistent_none_reach g (wipe_consistent g true i st hc)
      (wipe_self g true i st) h.to_reflTransGen
  simp [DepGraph.set, Function.update_noteq hBi, h1]

/-- Reachability along influence edges stays inside a list closed under the
influence relation. -/
theorem reaches_mem_closed [DecidableEq ι] (g : DepGraph ι V) (S : List ι)
    (hcl : ∀ a ∈ S, ∀ b ∈ g.influences a, b ∈ S) {a b : ι}
    (h : Reaches g a b) (ha : a ∈ S) : b ∈ S := by
  induction h with
  | refl => exact ha
  | tail _ hlast ih => exact hcl _ ih _ hlast

/-- A get of one node leaves every other slot untouched. -/
theorem get_frame [DecidableEq ι] (g : DepGraph ι V) (i : ι) (st : CState ι V)
    {k : ι} (h : k ≠ i) : (g.get i st).1 k = st k := by
  unfold DepGraph.get
  split
  · simp [Function.update_noteq h]
  · rfl

/-- Synchronicity: the state returned by a get already caches the returned
value — recomputation is complete before the get returns. -/
theorem get_sync [DecidableEq ι] (g : DepGraph ι V) (i : ι) (st : CState ι V) :
    (g.get i st).1 i = (g.get i st).2 := by
  unfold DepGraph.get
  split <;> rfl

/-- A get of a present slot returns the cached value and changes nothing. -/
theorem get_present [DecidableEq ι] (g : DepGraph ι V) (i : ι) (st : CState ι V)
    {v : V} (h : st i = some v) : g.get i st = (st, some v) := by
  unfold DepGraph.get needs_update
  rw [h]
  simp

/-- A get of an absent slot invokes the compute function as getter, caches
and returns its result. -/
theorem get_absent [DecidableEq ι] (g : DepGraph ι V) (i : ι) (st : CState ι V)
    (h : st i = none) :
    g.get i st = (Function.update st i (g.func i st none), g.func i st none) := by
  unfold DepGraph.get needs_update
  rw [h]
  simp

/-! ## Claim theorems -/

/-- C3: for every instance in a consistent cache state and every node `A`,
after `set(A)` completes, every node transitively dependent on `A` (other
than `A` itself, which holds the newly written value) has its cached slot
absent; every other node retains exactly its prior cached value; and the
slot of any node stays untouched by reads of other nodes, i.e. it remains
absent until the next read of the node itself. -/
theorem C3_invalidation_completeness_and_frame {ι V : Type} [DecidableEq ι]
    [Fintype ι] (g : DepGraph ι V) (st : CState ι V) (A : ι) (v : V)
    (hc : Consistent g st) :
    (∀ B, B ≠ A → DependsTrans g A B → g.set A v st B = none) ∧
    (∀ B, B ≠ A → ¬ DependsTrans g A B → g.set A v st B = st B) ∧
    (∀ (B j : ι) (st' : CState ι V), B ≠ j → (g.get j st').1 B = st' B) := by
  refine ⟨?_, ?_, ?_⟩
  · intro B hBA h
    exact set_dependents_none g A v st hc hBA h
  · intro B hBA h
    apply set_frame
    intro hreach
    rcases (Relation.reflTransGen_iff_eq_or_transGen.mp hreach) with h1 | h1
    · exact hBA h1
    · exact h h1
  · intro B j st' h
    exact get_frame g j st' h

/-- Witness for C3 on the diamond graph: the state is consistent, node 3
(transitively dependent on 0) is absent after `set(0)`, and node 2 (not
dependent on 1) keeps its cached value after `set(1)`. -/
theorem C3_witness :
    Consistent dmdGraph dmdState ∧
    dmdGraph.set 0 5 dmdState 3 = none ∧
    dmdGraph.set 1 5 dmdState 2 = some 0 := by
  have hc : Consistent dmdGraph dmdState := by
    intro i hi
    simp [dmdState] at hi
  refine ⟨hc, ?_, ?_⟩
  · exact (C3_invalidation_completeness_and_frame dmdGraph dmdState 0 5 hc).1 3
      (by decide)
      (Relation.TransGen.head (show Influences dmdGraph 0 1 by decide)
        (Relation.TransGen.single (show Influences dmdGraph 1 3 by decide)))
  · have hnot : ¬ DependsTrans dmdGraph 1 2 := by
      intro h
      have := reaches_mem_closed dmdGraph [1, 3] (by decide) h.to_reflTransGen (by decide)
      simp at this
    exact ((C3_invalidation_completeness_and_frame dmdGraph dmdState 1 5 hc).2.1 2
      (by decide) hnot).trans rfl

/-- C4: a non-forced invalidation of an already-absent node is a no-op (no
further cascade); the fueled wipe cascade stabilizes at any fuel above the
number of present slots plus two, so a cascade triggered by a single write
terminates even on graphs with diamonds or mutually dependent
dual-representation pairs; and a write invokes the written node's compute
function exactly once and no other node's at all. -/
theorem C4_noop_termination_single_invocation {ι V : Type} [DecidableEq ι]
    [Fintype ι] (g : DepGraph ι V) :
    (∀ (st : CState ι V) (i : ι), st i = none → wipe g false i st = st) ∧
    (∀ (st : CState ι V) (force : Bool) (i : ι) (fuel : ℕ),
      presentCount st + 2 ≤ fuel → wipeF g fuel force i st = wipe g force i st) ∧
    (∀ (sc : CState ι V × (ι → ℕ)) (i : ι) (v : V),
      (g.setC i v sc).2 i = sc.2 i + 1 ∧
      ∀ j, j ≠ i → (g.setC i v sc).2 j = sc.2 j) := by
  refine ⟨?_, ?_, ?_⟩
  · intro st i h
    unfold wipe
    rw [show presentCount st + 2 = (presentCount st + 1) + 1 from rfl, wipeF_succ]
    rw [if_pos ⟨by simp [needs_update, h], rfl⟩]
  · intro st force i fuel h
    exact wipeF_fuel_le g force i st fuel h
  · intro sc i v
    refine ⟨by simp [DepGraph.setC], ?_⟩
    intro j hj
    simp [DepGraph.setC, Function.update_noteq hj]

/-- Witness for C4 on the diamond graph: wiping the absent sink is a no-op,
a forced wipe of the diamond's source at large fuel equals the canonical
wipe, and a write to the source bumps only the source's invocation count. -/
theorem C4_witness :
    wipe dmdGraph false 3 (Function.update dmdState 3 none) =
      Function.update dmdState 3 none ∧
    wipeF dmdGraph 20 true 0 dmdState = wipe dmdGraph true 0 dmdState ∧
    (dmdGraph.setC 0 5 (dmdState, fun _ => 0)).2 0 = 1 ∧
    (dmdGraph.setC 0 5 (dmdState, fun _ => 0)).2 3 = 0 := by
  refine ⟨?_, ?_, ?_, ?_⟩
  · exact (C4_noop_termination_single_invocation dmdGraph).1 _ 3 (by simp)
  · exact (C4_noop_termination_single_invocation dmdGraph).2.1 dmdState true 0 20
      (by decide)
  · exact ((C4_noop_termination_single_invocation dmdGraph).2.2 (dmdState, fun _ => 0)
      0 5).1
  · exact ((C4_noop_termination_single_invocation dmdGraph).2.2 (dmdState, fun _ => 0)
      0 5).2 3 (by decide)

/-- C7 counterexample: on a node whose compute function returns `None` (the
`spike_data` node before any data is gathered), two gets without an
intervening set invoke the compute function twice, not exactly once — the
`None` result is never cached, so the second get recomputes. -/
theorem C7_counterexample_none_result_recomputed :
    (noneFuncGraph.getC 0
        ((noneFuncGraph.getC 0 ((fun _ => none), fun _ => 0)).1)).1.2 0 = 2 := by
  decide

/-- C7 (amended): for every node whose compute function returns a proper
(non-`None`) value, two gets with no intervening set return the identical
cached value, the second get changes nothing, and the compute function is
invoked exactly once, on the first get only. -/
theorem C7_amended_get_idempotent {ι V : Type} [DecidableEq ι]
    (g : DepGraph ι V) (i : ι) (st : CState ι V) (c : ι → ℕ) (v : V)
    (h0 : st i = none) (hf : g.func i st none = some v) :
    (g.getC i (st, c)).2 = some v ∧
    (g.getC i ((g.getC i (st, c)).1)).2 = some v ∧
    (g.getC i ((g.getC i (st, c)).1)).1 = (g.getC i (st, c)).1 ∧
    (g.getC i (st, c)).1.2 i = c i + 1 ∧
    (∀ j, j ≠ i → (g.getC i (st, c)).1.2 j = c j) := by
  have h1 : g.getC i (st, c) =
      ((Function.update st i (some v), Function.update c i (c i + 1)), some v) := by
    simp [DepGraph.getC, needs_update, h0, hf]
  have h2 : g.getC i ((Function.update st i (some v), Function.update c i (c i + 1))) =
      (((Function.update st i (some v), Function.update c i (c i + 1))), some v) := by
    simp [DepGraph.getC, needs_update]
  rw [h1]
  refine ⟨rfl, ?_, ?_, by simp, ?_⟩
  · rw [h2]
  · rw [h2]
  · intro j hj
    simp [Function.update_noteq hj]

/-- Witness for C7 (amended) on a one-node graph whose compute function
returns 7. -/
theorem C7_witness :
    (constFuncGraph.getC 0 ((fun _ => none), fun _ => 0)).2 = some 7 ∧
    (constFuncGraph.getC 0
        ((constFuncGraph.getC 0 ((fun _ => none), fun _ => 0)).1)).2 = some 7 ∧
    (constFuncGraph.getC 0 ((fun _ => none), fun _ => 0)).1.2 0 = 0 + 1 := by
  have h := C7_amended_get_idempotent constFuncGraph 0 (fun _ => none) (fun _ => 0) 7
    rfl rfl
  exact ⟨h.1, h.2.1, h.2.2.2.1⟩

/-- C10: `None` is the cache's only absence marker.  A compute function
returning `None` on a get leaves the slot absent, so the value is not cached
and every subsequent get re-invokes the compute function; and a set whose
compute function returns `None` (the `biases_theo`/`biases_bio` setter
branch, which falls off the end of the function) leaves the instance in
exactly the state of a forced invalidation of the node. -/
theorem C10_none_is_absence_marker {ι V : Type} [DecidableEq ι] [Fintype ι]
    (g : DepGraph ι V) (i : ι) :
    (∀ (st : CState ι V) (c : ι → ℕ), st i = none → g.func i st none = none →
      (g.getC i (st, c)).2 = none ∧
      (g.getC i (st, c)).1.1 i = none ∧
      (g.getC i (st, c)).1.2 i = c i + 1 ∧
      (g.getC i ((g.getC i (st, c)).1)).1.2 i = c i + 2) ∧
    (∀ (st : CState ι V) (v : V), g.func i (wipe g true i st) (some v) = none →
      g.set i v st = wipe g true i st) := by
  constructor
  · intro st c h0 hf
    have h1 : g.getC i (st, c) =
        ((Function.update st i none, Function.update c i (c i + 1)), none) := by
      simp [DepGraph.getC, needs_update, h0, hf]
    have hupd : Function.update st i none = st := by
      rw [← h0, Function.update_eq_self]
    rw [h1, hupd]
    refine ⟨rfl, h0, by simp, ?_⟩
    have h2 : g.getC i (st, Function.update c i (c i + 1)) =
        ((Function.update st i none, Function.update (Function.update c i (c i + 1)) i
          (Function.update c i (c i + 1) i + 1)), none) := by
      simp [DepGraph.getC, needs_update, h0, hf]
    rw [h2]
    simp
  · intro st v hf
    have h1 : g.set i v st = Function.update (wipe g true i st) i none := by
      simp [DepGraph.set, hf]
    rw [h1, ← wipe_self g true i st, Function.update_eq_self]

/-- Witness for C10 on a one-node graph whose compute function returns
`None`: nothing is cached, the compute function is re-invoked, and a set is
indistinguishable from a forced invalidation. -/
theorem C10_witness :
    (noneFuncGraph.getC 0 ((fun _ => none), fun _ => 0)).2 = none ∧
    (noneFuncGraph.getC 0 ((fun _ => none), fun _ => 0)).1.1 0 = none ∧
    noneFuncGraph.set 0 5 (fun _ => some 1) =
      wipe noneFuncGraph true 0 (fun _ => some 1) := by
  have h := (C10_none_is_absence_marker noneFuncGraph 0).1 (fun _ => none)
    (fun _ => 0) rfl rfl
  have h2 := (C10_none_is_absence_marker noneFuncGraph 0).2 (fun _ => some 1) 5 rfl
  exact ⟨h.1, h.2.1, h2⟩

/-- The effect of the izip write loop is exactly a silent restriction to
the shorter sequence: the first entries take the written values, the
samplers past the written vector keep their old biases, and extra written
entries are dropped. -/
theorem biases_setter_izip_eq (bs ss : List ℝ) :
    biases_setter_izip bs ss = bs.take ss.length ++ ss.drop bs.length := by
  induction bs generalizing ss with
  | nil => cases ss <;> simp [biases_setter_izip]
  | cons b bs ih =>
    cases ss with
    | nil => simp [biases_setter_izip]
    | cons s ss => simp [biases_setter_izip, ih]

/-- The izip write loop never changes the number of samplers. -/
theorem biases_setter_izip_length (bs ss : List ℝ) :
    (biases_setter_izip bs ss).length = ss.length := by
  rw [biases_setter_izip_eq]
  simp
  omega

/-- C2 counterexample: for the weight node, a set with a wrongly shaped
matrix (3x3 on a 2-sampler network) surfaces the shape assertion to the
caller, but the node's previously cached value does NOT remain unmodified:
the forced wipe runs before the shape check, so the node's slot and its
dependent's slot are both absent after the failed set.  For a bias node the
original claim fails differently: a wrongly sized bias vector (3 entries on
a 2-sampler network) surfaces NO error at all — the setter has no shape
check, `izip` silently restricts the vector to the sampler count (and a
too-short vector leaves the remaining samplers' old biases). -/
theorem C2_counterexample_failed_set_clears_cache :
    (c2Graph.setTry (fun _ st v => weightsFuncE 2 st v) 0 badArr33 c2State).1 =
      Except.error PyExn.assertionError ∧
    (c2State 0).isSome = true ∧
    (c2State 1).isSome = true ∧
    ((c2Graph.setTry (fun _ st v => weightsFuncE 2 st v) 0 badArr33 c2State).2 0).isNone
      = true ∧
    ((c2Graph.setTry (fun _ st v => weightsFuncE 2 st v) 0 badArr33 c2State).2 1).isNone
      = true ∧
    (biasGraph.setTry (fun _ s vv => biasesFuncE [0, 0] s vv) 0 [1, 2, 3]
      biasState).1 = Except.ok () ∧
    ((biasGraph.setTry (fun _ s vv => biasesFuncE [0, 0] s vv) 0 [1, 2, 3]
      biasState).2 0).isNone = true ∧
    biases_setter_izip [1, 2, 3] [0, 0] = [1, 2] ∧
    biases_setter_izip [5] [0, 0] = [5, 0] := by
  refine ⟨rfl, rfl, rfl, rfl, rfl, rfl, rfl, rfl, rfl⟩

/-- C2 (amended): for a weight node, when the compute function raises at
set time (the shape assertion of `_check_weight_matrix`), the error is
surfaced to the caller and no new value is cached, but the node's cached
value does not survive: the set has already run the forced wipe, so the
node and all its transitive dependents are absent afterwards, while nodes
not dependent on it retain their prior cached values.  For a bias node no
error is surfaced at all: the setter performs no shape check — a set with a
vector of ANY length completes with no exception and caches nothing — and
the izip write loop silently restricts the written vector to the sampler
count, leaving samplers past its end at their old biases. -/
theorem C2_amended_shape_error_surfaced_after_wipe {ι V E : Type} [DecidableEq ι]
    [Fintype ι] (g : DepGraph ι V)
    (funcE : ι → CState ι V → Option V → Except E (Option V)) (i : ι) (v : V)
    (st : CState ι V) (e : E)
    (herr : funcE i (wipe g true i st) (some v) = .error e) :
    ((g.setTry funcE i v st).1 = .error e ∧
     (g.setTry funcE i v st).2 = wipe g true i st ∧
     (g.setTry funcE i v st).2 i = none ∧
     (∀ k, ¬ Reaches g i k → (g.setTry funcE i v st).2 k = st k) ∧
     (Consistent g st → ∀ B, DependsTrans g i B →
       (g.setTry funcE i v st).2 B = none)) ∧
    (∀ (samplers biases : List ℝ) (stb : CState (Fin 2) (List ℝ)),
      (biasGraph.setTry (fun _ s vv => biasesFuncE samplers s vv) 0 biases stb).1 =
        Except.ok () ∧
      (biasGraph.setTry (fun _ s vv => biasesFuncE samplers s vv) 0 biases stb).2 0 =
        none) ∧
    (∀ bs ss : List ℝ,
      biases_setter_izip bs ss = bs.take ss.length ++ ss.drop bs.length ∧
      (biases_setter_izip bs ss).length = ss.length) := by
  have hst : g.setTry funcE i v st = (.error e, wipe g true i st) := by
    simp only [DepGraph.setTry]
    rw [herr]
  refine ⟨⟨by rw [hst], by rw [hst], ?_, ?_, ?_⟩, ?_, ?_⟩
  · rw [hst]
    exact wipe_self g true i st
  · intro k hk
    rw [hst]
    exact wipe_frame g true i st hk
  · intro hc B hB
    rw [hst]
    exact consistent_none_reach g (wipe_consistent g true i st hc)
      (wipe_self g true i st) hB.to_reflTransGen
  · intro samplers biases stb
    refine ⟨rfl, ?_⟩
    show Function.update (wipe biasGraph true 0 stb) 0 none 0 = none
    rw [Function.update_same]
  · intro bs ss
    exact ⟨biases_setter_izip_eq bs ss, biases_setter_izip_length bs ss⟩

/-- Witness for C2 (amended): on the two-node weight graph with the 3x3
input the assertion error is surfaced and both the weight node and its
transitive dependent are absent afterwards; on the two-node bias graph a
3-entry vector on a 2-sampler network completes with no error, caches
nothing, and the izip loop keeps exactly two sampler biases. -/
theorem C2_witness :
    (c2Graph.setTry (fun _ st v => weightsFuncE 2 st v) 0 badArr33 c2State).1 =
      Except.error PyExn.assertionError ∧
    (c2Graph.setTry (fun _ st v => weightsFuncE 2 st v) 0 badArr33 c2State).2 0 =
      none ∧
    (c2Graph.setTry (fun _ st v => weightsFuncE 2 st v) 0 badArr33 c2State).2 1 =
      none ∧
    (biasGraph.setTry (fun _ s vv => biasesFuncE [0, 0] s vv) 0 [1, 2, 3]
      biasState).1 = Except.ok () ∧
    (biasGraph.setTry (fun _ s vv => biasesFuncE [0, 0] s vv) 0 [1, 2, 3]
      biasState).2 0 = none ∧
    (biases_setter_izip [1, 2, 3] [0, 0]).length = ([0, 0] : List ℝ).length := by
  have hc : Consistent c2Graph c2State := by
    intro a ha
    simp [c2State] at ha
  have h := C2_amended_shape_error_surfaced_after_wipe c2Graph
    (fun _ st v => weightsFuncE 2 st v) 0 badArr33 c2State PyExn.assertionError rfl
  exact ⟨h.1.1, h.1.2.2.1, h.1.2.2.2.2 hc 1 (Relation.TransGen.single (by decide)),
    (h.2.1 [0, 0] [1, 2, 3] biasState).1, (h.2.1 [0, 0] [1, 2, 3] biasState).2,
    (h.2.2 [1, 2, 3] [0, 0]).2⟩

/-- C6: if some name in a node's dependency list is declared nowhere in the
owning class's ancestor chain, the binding pass raises at type-registration
time instead of continuing past the missing dependency (in the source the
exception is the `AttributeError` raised by the `log.error` call's
`dep.__name__` on a `str` — the spec's `BindingError`); when every
dependency is found, binding completes. -/
theorem C6_missing_dependency_aborts_binding (deps : List String) (klass : PyClass)
    (h : ∃ dep ∈ deps, searchDepHits dep [klass] = false) :
    propagateDeps deps klass = .error .attributeError ∧
    ∀ (deps' : List String), (∀ dep ∈ deps', searchDepHits dep [klass] = true) →
      propagateDeps deps' klass = .ok () := by
  constructor
  · induction deps with
    | nil => simp at h
    | cons dep rest ih =>
      rcases h with ⟨d, hd, hmiss⟩
      rcases List.mem_cons.mp hd with h1 | h1
      · subst h1
        unfold propagateDeps
        rw [if_neg (by simp [hmiss])]
      · by_cases hfirst : searchDepHits dep [klass]
        · unfold propagateDeps
          rw [if_pos hfirst]
          exact ih ⟨d, h1, hmiss⟩
        · unfold propagateDeps
          rw [if_neg hfirst]
  · intro deps' hall
    induction deps' with
    | nil => rfl
    | cons dep rest ih =>
      unfold propagateDeps
      rw [if_pos (hall dep (List.mem_cons_self dep rest))]
      exact ih fun d hd => hall d (List.mem_cons_of_mem _ hd)

/-- Witness for C6: a class declaring only `weights_theo` cannot bind a node
depending on `weights_bio`; the binding pass errors out. -/
theorem C6_witness :
    propagateDeps ["weights_bio"] pyClassW = .error .attributeError := by
  have h := C6_missing_dependency_aborts_binding ["weights_bio"] pyClassW
    ⟨"weights_bio", by simp,
      by simp [searchDepHits, pyClassW, PyClass.decls, PyClass.bases]⟩
  exact h.1

/-- `reaches_mem_closed` specialised to the BoltzmannMachine graph, with the
closure condition stated over `bmInfluences` (the wiring does not depend on
the environment). -/
theorem bm_reach_closed (S : List BMNode)
    (hcl : ∀ a ∈ S, ∀ b ∈ bmInfluences a, b ∈ S) {env : BMEnv ns}
    {a k : BMNode} (h : Reaches (bmGraph env) a k) (ha : a ∈ S) : k ∈ S :=
  reaches_mem_closed (bmGraph env) S hcl h ha

/-- The only nodes reachable from `weights_theo` along influence edges are
the weight pair and the two theoretical distribution nodes. -/
theorem bm_reach_weightsTheo_closed {env : BMEnv ns} {k : BMNode}
    (h : Reaches (bmGraph env) .weightsTheo k) :
    k ∈ ([.weightsTheo, .weightsBio, .distMarginalTheo, .distJointTheo] :
      List BMNode) :=
  bm_reach_closed _ (by decide) h (by decide)

/-- The only nodes reachable from `weights_bio` are the same four. -/
theorem bm_reach_weightsBio_closed {env : BMEnv ns} {k : BMNode}
    (h : Reaches (bmGraph env) .weightsBio k) :
    k ∈ ([.weightsBio, .weightsTheo, .distMarginalTheo, .distJointTheo] :
      List BMNode) :=
  bm_reach_closed _ (by decide) h (by decide)

/-- The only nodes reachable from `selected_sampler_idx` are itself and the
four distribution nodes. -/
theorem bm_reach_selected_closed {env : BMEnv ns} {k : BMNode}
    (h : Reaches (bmGraph env) .selectedSamplerIdx k) :
    k ∈ ([.selectedSamplerIdx, .distMarginalSim, .distJointSim,
      .distMarginalTheo, .distJointTheo] : List BMNode) :=
  bm_reach_closed _ (by decide) h (by decide)

/-- C1: after writing `weights_theo` (in particular after any sequence of
earlier writes, since the pre-state is arbitrary), a get of `weights_theo`
returns exactly the written matrix (diagonal zeroed by the setter), a get of
`weights_bio` returns the conversion re-derived from the just-written
theoretical matrix — a function of the written value alone, never a mixture
with pre-write values — and the conversion is cached in the state the get
returns, i.e. recomputation is complete before the get returns; a get of
`dist_marginal_theo` likewise uses the just-written weights together with
the currently cached biases and selection; and symmetrically, after writing
`weights_bio`, a get of `weights_theo` re-derives from the just-written
biological matrix. -/
theorem C1_set_then_get_reflects_last_write (env : BMEnv ns)
    (st : CState BMNode (BMVal ns)) (w : Fin ns → Fin ns → ℝ) (b : Fin ns → ℝ)
    (ssi : List ℕ) (hb : st .biasesTheo = some (.vec b))
    (hs : st .selectedSamplerIdx = some (.idx ssi)) :
    ((bmGraph env).get .weightsTheo
        ((bmGraph env).set .weightsTheo (.mat w) st)).2 =
      some (.mat (checkWeightMatrixShaped w)) ∧
    ((bmGraph env).get .weightsBio
        ((bmGraph env).set .weightsTheo (.mat w) st)).2 =
      some (.mat (convert_weights_theo_to_bio env (checkWeightMatrixShaped w))) ∧
    ((bmGraph env).get .weightsBio
        ((bmGraph env).set .weightsTheo (.mat w) st)).1 .weightsBio =
      some (.mat (convert_weights_theo_to_bio env (checkWeightMatrixShaped w))) ∧
    ((bmGraph env).get .distMarginalTheo
        ((bmGraph env).set .weightsTheo (.mat w) st)).2 =
      some (.dist (env.margSolver (restrictMat (checkWeightMatrixShaped w) ssi)
        (restrictVec b ssi))) ∧
    ((bmGraph env).get .weightsTheo
        ((bmGraph env).set .weightsBio (.mat w) st)).2 =
      some (.mat (convert_weights_bio_to_theo env (checkWeightMatrixShaped w))) := by
  have h1 : (bmGraph env).set .weightsTheo (.mat w) st .weightsTheo =
      some (.mat (checkWeightMatrixShaped w)) := by
    rw [set_self]
    rfl
  have h2 : (bmGraph env).set .weightsTheo (.mat w) st .weightsBio = none :=
    set_influences_none _ _ _ _
      (show BMNode.weightsBio ∈ bmInfluences BMNode.weightsTheo by decide)
      (by decide)
  have h4 : (bmGraph env).set .weightsTheo (.mat w) st .distMarginalTheo = none :=
    set_influences_none _ _ _ _
      (show BMNode.distMarginalTheo ∈ bmInfluences BMNode.weightsTheo by decide)
      (by decide)
  have hsel : (bmGraph env).set .weightsTheo (.mat w) st .selectedSamplerIdx =
      some (.idx ssi) := by
    rw [set_frame _ _ _ _ (fun hr => by
      have := bm_reach_weightsTheo_closed hr
      simp at this)]
    exact hs
  have hbias : (bmGraph env).set .weightsTheo (.mat w) st .biasesTheo =
      some (.vec b) := by
    rw [set_frame _ _ _ _ (fun hr => by
      have := bm_reach_weightsTheo_closed hr
      simp at this)]
    exact hb
  have h1' : (bmGraph env).set .weightsBio (.mat w) st .weightsBio =
      some (.mat (checkWeightMatrixShaped w)) := by
    rw [set_self]
    rfl
  have h2' : (bmGraph env).set .weightsBio (.mat w) st .weightsTheo = none :=
    set_influences_none _ _ _ _
      (show BMNode.weightsTheo ∈ bmInfluences BMNode.weightsBio by decide)
      (by decide)
  have hval2 : (bmGraph env).func BMNode.weightsBio
      ((bmGraph env).set BMNode.weightsTheo (BMVal.mat w) st) none =
      some (.mat (convert_weights_theo_to_bio env (checkWeightMatrixShaped w))) := by
    show bmFunc env BMNode.weightsBio
      ((bmGraph env).set BMNode.weightsTheo (BMVal.mat w) st) none = _
    simp only [bmFunc]
    rw [h1]
  have hval4 : (bmGraph env).func BMNode.distMarginalTheo
      ((bmGraph env).set BMNode.weightsTheo (BMVal.mat w) st) none =
      some (.dist (env.margSolver (restrictMat (checkWeightMatrixShaped w) ssi)
        (restrictVec b ssi))) := by
    show bmFunc env BMNode.distMarginalTheo
      ((bmGraph env).set BMNode.weightsTheo (BMVal.mat w) st) none = _
    simp only [bmFunc]
    rw [hsel, hbias, h1]
  have hval5 : (bmGraph env).func BMNode.weightsTheo
      ((bmGraph env).set BMNode.weightsBio (BMVal.mat w) st) none =
      some (.mat (convert_weights_bio_to_theo env (checkWeightMatrixShaped w))) := by
    show bmFunc env BMNode.weightsTheo
      ((bmGraph env).set BMNode.weightsBio (BMVal.mat w) st) none = _
    simp only [bmFunc]
    rw [h1']
  refine ⟨?_, ?_, ?_, ?_, ?_⟩
  · rw [get_present _ _ _ h1]
  · rw [get_absent _ _ _ h2, hval2]
  · rw [get_absent _ _ _ h2]
    dsimp only
    rw [Function.update_same, hval2]
  · rw [get_absent _ _ _ h4, hval4]
  · rw [get_absent _ _ _ h2', hval5]

/-- Witness for C1 on a one-sampler network with identity conversions,
cached zero biases and the full selection. -/
theorem C1_witness :
    ((bmGraph (idBMEnv 1)).get .weightsTheo
        ((bmGraph (idBMEnv 1)).set .weightsTheo (.mat fun _ _ => 0) bmStateC1)).2 =
      some (.mat (checkWeightMatrixShaped fun _ _ => 0)) ∧
    ((bmGraph (idBMEnv 1)).get .weightsBio
        ((bmGraph (idBMEnv 1)).set .weightsTheo (.mat fun _ _ => 0) bmStateC1)).2 =
      some (.mat (convert_weights_theo_to_bio (idBMEnv 1)
        (checkWeightMatrixShaped fun _ _ => 0))) ∧
    ((bmGraph (idBMEnv 1)).get .weightsBio
        ((bmGraph (idBMEnv 1)).set .weightsTheo (.mat fun _ _ => 0) bmStateC1)).1
        .weightsBio =
      some (.mat (convert_weights_theo_to_bio (idBMEnv 1)
        (checkWeightMatrixShaped fun _ _ => 0))) ∧
    ((bmGraph (idBMEnv 1)).get .distMarginalTheo
        ((bmGraph (idBMEnv 1)).set .weightsTheo (.mat fun _ _ => 0) bmStateC1)).2 =
      some (.dist ((idBMEnv 1).margSolver
        (restrictMat (checkWeightMatrixShaped (fun _ _ => 0 : Fin 1 → Fin 1 → ℝ)) [0])
        (restrictVec (fun _ => (0 : ℝ) : Fin 1 → ℝ) [0]))) ∧
    ((bmGraph (idBMEnv 1)).get .weightsTheo
        ((bmGraph (idBMEnv 1)).set .weightsBio (.mat fun _ _ => 0) bmStateC1)).2 =
      some (.mat (convert_weights_bio_to_theo (idBMEnv 1)
        (checkWeightMatrixShaped fun _ _ => 0))) :=
  C1_set_then_get_reflects_last_write (idBMEnv 1) bmStateC1 (fun _ _ => 0)
    (fun _ => 0) [0] rfl rfl

/-- C5 counterexample: the "at any time after the first write exactly one
of the two nodes holds a materialized cached value — the one last written"
invariant fails for both dual pairs, in opposite directions.  Weights pair:
after writing `weights_theo` and then reading `weights_bio`, BOTH nodes
hold materialized cached values — the read caches the conversion.  Biases
pair: immediately after writing `biases_theo`, NEITHER node holds a
materialized value — the setter branch returns None (the written values
live in the sampler objects), so in particular the last-written side is not
the materialized one. -/
theorem C5_counterexample_both_sides_cached_after_read :
    (((bmGraph (idBMEnv 1)).get .weightsBio
        ((bmGraph (idBMEnv 1)).set .weightsTheo (.mat fun _ _ => 0)
          bmStateEmpty)).1 .weightsTheo).isSome = true ∧
    (((bmGraph (idBMEnv 1)).get .weightsBio
        ((bmGraph (idBMEnv 1)).set .weightsTheo (.mat fun _ _ => 0)
          bmStateEmpty)).1 .weightsBio).isSome = true ∧
    ((bmGraph (idBMEnv 1)).set .biasesTheo (.vec fun _ => 0) bmStateEmpty
        .biasesTheo).isNone = true ∧
    ((bmGraph (idBMEnv 1)).set .biasesTheo (.vec fun _ => 0) bmStateEmpty
        .biasesBio).isNone = true := by
  exact ⟨rfl, rfl, rfl, rfl⟩

/-- C5 (amended): writing either side of a dual pair invalidates the other,
but which sides are materialized afterwards differs per pair.  Weights
pair: immediately after a write — and until the other side is next read —
exactly one of the two holds a materialized value, namely the side last
written; reading the other side triggers the conversion and caches it,
after which both sides are materialized until the next write.  Biases pair:
immediately after a write neither side is materialized (the setter writes
into the sampler objects and returns None); a subsequent read of either
side re-derives that side from the per-sampler biases and caches it. -/
theorem C5_amended_one_side_materialized_until_read (env : BMEnv ns)
    (st : CState BMNode (BMVal ns)) (w : Fin ns → Fin ns → ℝ) (b : Fin ns → ℝ) :
    (bmGraph env).set .weightsTheo (.mat w) st .weightsTheo =
      some (.mat (checkWeightMatrixShaped w)) ∧
    (bmGraph env).set .weightsTheo (.mat w) st .weightsBio = none ∧
    ((bmGraph env).get .weightsBio
        ((bmGraph env).set .weightsTheo (.mat w) st)).2 =
      some (.mat (convert_weights_theo_to_bio env (checkWeightMatrixShaped w))) ∧
    ((bmGraph env).get .weightsBio
        ((bmGraph env).set .weightsTheo (.mat w) st)).1 .weightsBio =
      ((bmGraph env).get .weightsBio ((bmGraph env).set .weightsTheo (.mat w) st)).2 ∧
    (bmGraph env).set .weightsBio (.mat w) st .weightsBio =
      some (.mat (checkWeightMatrixShaped w)) ∧
    (bmGraph env).set .weightsBio (.mat w) st .weightsTheo = none ∧
    (bmGraph env).set .biasesTheo (.vec b) st .biasesTheo = none ∧
    (bmGraph env).set .biasesTheo (.vec b) st .biasesBio = none ∧
    ((bmGraph env).get .biasesTheo
        ((bmGraph env).set .biasesTheo (.vec b) st)).2 =
      some (.vec fun i => env.samplerBiasTheo i) ∧
    ((bmGraph env).get .biasesBio
        ((bmGraph env).set .biasesTheo (.vec b) st)).2 =
      some (.vec fun i => env.samplerBiasBio i) ∧
    (bmGraph env).set .biasesBio (.vec b) st .biasesBio = none ∧
    (bmGraph env).set .biasesBio (.vec b) st .biasesTheo = none := by
  have h1 : (bmGraph env).set .weightsTheo (.mat w) st .weightsTheo =
      some (.mat (checkWeightMatrixShaped w)) := by
    rw [set_self]
    rfl
  have h2 : (bmGraph env).set .weightsTheo (.mat w) st .weightsBio = none :=
    set_influences_none _ _ _ _
      (show BMNode.weightsBio ∈ bmInfluences BMNode.weightsTheo by decide)
      (by decide)
  have hval : (bmGraph env).func BMNode.weightsBio
      ((bmGraph env).set BMNode.weightsTheo (BMVal.mat w) st) none =
      some (.mat (convert_weights_theo_to_bio env (checkWeightMatrixShaped w))) := by
    show bmFunc env BMNode.weightsBio
      ((bmGraph env).set BMNode.weightsTheo (BMVal.mat w) st) none = _
    simp only [bmFunc]
    rw [h1]
  have hb1 : (bmGraph env).set .biasesTheo (.vec b) st .biasesTheo = none := by
    rw [set_self]
    rfl
  have hb2 : (bmGraph env).set .biasesTheo (.vec b) st .biasesBio = none :=
    set_influences_none _ _ _ _
      (show BMNode.biasesBio ∈ bmInfluences BMNode.biasesTheo by decide)
      (by decide)
  have hvalbt : (bmGraph env).func BMNode.biasesTheo
      ((bmGraph env).set BMNode.biasesTheo (BMVal.vec b) st) none =
      some (.vec fun i => env.samplerBiasTheo i) := rfl
  have hvalbb : (bmGraph env).func BMNode.biasesBio
      ((bmGraph env).set BMNode.biasesTheo (BMVal.vec b) st) none =
      some (.vec fun i => env.samplerBiasBio i) := rfl
  refine ⟨h1, h2, ?_, get_sync _ _ _, by rw [set_self]; rfl, ?_, hb1, hb2, ?_, ?_,
    by rw [set_self]; rfl, ?_⟩
  · rw [get_absent _ _ _ h2, hval]
  · exact set_influences_none _ _ _ _
      (show BMNode.weightsTheo ∈ bmInfluences BMNode.weightsBio by decide)
      (by decide)
  · rw [get_absent _ _ _ hb1, hvalbt]
  · rw [get_absent _ _ _ hb2, hvalbb]
  · exact set_influences_none _ _ _ _
      (show BMNode.biasesTheo ∈ bmInfluences BMNode.biasesBio by decide)
      (by decide)

/-- The stored selection is duplicate-free. -/
theorem pySetList_nodup (xs : List ℕ) : (pySetList xs).Nodup := by
  unfold pySetList
  exact ((List.perm_insertionSort _ _).nodup_iff).mpr (List.nodup_dedup xs)

/-- The stored selection has exactly the members of the written list. -/
theorem pySetList_mem (xs : List ℕ) (i : ℕ) : i ∈ pySetList xs ↔ i ∈ xs := by
  unfold pySetList
  rw [(List.perm_insertionSort _ _).mem_iff, List.mem_dedup]

/-- The stored selection is in ascending order. -/
theorem pySetList_sorted (xs : List ℕ) : (pySetList xs).Sorted (· ≤ ·) :=
  List.sorted_insertionSort _ _

/-- The stored selection depends only on the set of written indices. -/
theorem pySetList_canonical {xs ys : List ℕ} (h : ys.toFinset = xs.toFinset) :
    pySetList ys = pySetList xs := by
  apply List.eq_of_perm_of_sorted ?_ (pySetList_sorted ys) (pySetList_sorted xs)
  apply (List.perm_ext_iff_of_nodup (pySetList_nodup ys) (pySetList_nodup xs)).mpr
  intro a
  rw [pySetList_mem, pySetList_mem, ← List.mem_toFinset, ← List.mem_toFinset, h]

/-- C8: writing any index list (duplicates allowed) to
`selected_sampler_idx` stores it deduplicated, in ascending — hence
canonical and deterministic — order (the stored value depends only on the
set of indices written); the write invalidates every distribution node; and
a subsequent get of `dist_marginal_theo` operates only on the stored subset:
its value is the solver applied to the weight sub-matrix and bias sub-vector
restricted to the stored selection. -/
theorem C8_selection_dedup_canonical_invalidates (env : BMEnv ns)
    (st : CState BMNode (BMVal ns)) (xs : List ℕ) (w : Fin ns → Fin ns → ℝ)
    (b : Fin ns → ℝ) (hw : st .weightsTheo = some (.mat w))
    (hb : st .biasesTheo = some (.vec b)) :
    (pySetList xs).Nodup ∧
    (∀ i, i ∈ pySetList xs ↔ i ∈ xs) ∧
    (pySetList xs).Sorted (· ≤ ·) ∧
    (∀ ys, ys.toFinset = xs.toFinset → pySetList ys = pySetList xs) ∧
    (bmGraph env).set .selectedSamplerIdx (.idx xs) st .selectedSamplerIdx =
      some (.idx (pySetList xs)) ∧
    (bmGraph env).set .selectedSamplerIdx (.idx xs) st .distMarginalSim = none ∧
    (bmGraph env).set .selectedSamplerIdx (.idx xs) st .distJointSim = none ∧
    (bmGraph env).set .selectedSamplerIdx (.idx xs) st .distMarginalTheo = none ∧
    (bmGraph env).set .selectedSamplerIdx (.idx xs) st .distJointTheo = none ∧
    ((bmGraph env).get .distMarginalTheo
        ((bmGraph env).set .selectedSamplerIdx (.idx xs) st)).2 =
      some (.dist (env.margSolver (restrictMat w (pySetList xs))
        (restrictVec b (pySetList xs)))) := by
  have hstore : (bmGraph env).set .selectedSamplerIdx (.idx xs) st
      .selectedSamplerIdx = some (.idx (pySetList xs)) := by
    rw [set_self]
    rfl
  have hdm : (bmGraph env).set .selectedSamplerIdx (.idx xs) st
      .distMarginalTheo = none :=
    set_influences_none _ _ _ _
      (show BMNode.distMarginalTheo ∈ bmInfluences BMNode.selectedSamplerIdx by decide)
      (by decide)
  have hwf : (bmGraph env).set .selectedSamplerIdx (.idx xs) st .weightsTheo =
      some (.mat w) := by
    rw [set_frame _ _ _ _ (fun hr => by
      have := bm_reach_selected_closed hr
      simp at this)]
    exact hw
  have hbf : (bmGraph env).set .selectedSamplerIdx (.idx xs) st .biasesTheo =
      some (.vec b) := by
    rw [set_frame _ _ _ _ (fun hr => by
      have := bm_reach_selected_closed hr
      simp at this)]
    exact hb
  have hval : (bmGraph env).func BMNode.distMarginalTheo
      ((bmGraph env).set BMNode.selectedSamplerIdx (BMVal.idx xs) st) none =
      some (.dist (env.margSolver (restrictMat w (pySetList xs))
        (restrictVec b (pySetList xs)))) := by
    show bmFunc env BMNode.distMarginalTheo
      ((bmGraph env).set BMNode.selectedSamplerIdx (BMVal.idx xs) st) none = _
    simp only [bmFunc]
    rw [hstore, hbf, hwf]
  refine ⟨pySetList_nodup xs, pySetList_mem xs, pySetList_sorted xs,
    fun ys hys => pySetList_canonical hys, hstore,
    set_influences_none _ _ _ _
      (show BMNode.distMarginalSim ∈ bmInfluences BMNode.selectedSamplerIdx by decide)
      (by decide),
    set_influences_none _ _ _ _
      (show BMNode.distJointSim ∈ bmInfluences BMNode.selectedSamplerIdx by decide)
      (by decide), hdm,
    set_influences_none _ _ _ _
      (show BMNode.distJointTheo ∈ bmInfluences BMNode.selectedSamplerIdx by decide)
      (by decide), ?_⟩
  rw [get_absent _ _ _ hdm, hval]

/-- Witness for C8 on a five-sampler network: the selection `[3,1,1,2]` is
stored as `[1,2,3]`, the distribution nodes are invalidated, and the
marginal distribution is computed over the three-element subset. -/
theorem C8_witness :
    pySetList [3, 1, 1, 2] = [1, 2, 3] ∧
    ((bmGraph (idBMEnv 5)).set .selectedSamplerIdx (.idx [3, 1, 1, 2]) bmStateC8
      .selectedSamplerIdx = some (.idx (pySetList [3, 1, 1, 2])) ∧
    (bmGraph (idBMEnv 5)).set .selectedSamplerIdx (.idx [3, 1, 1, 2]) bmStateC8
      .distMarginalTheo = none ∧
    ((bmGraph (idBMEnv 5)).get .distMarginalTheo
        ((bmGraph (idBMEnv 5)).set .selectedSamplerIdx (.idx [3, 1, 1, 2])
          bmStateC8)).2 =
      some (.dist ((idBMEnv 5).margSolver
        (restrictMat (fun _ _ => 0 : Fin 5 → Fin 5 → ℝ) (pySetList [3, 1, 1, 2]))
        (restrictVec (fun _ => (0 : ℝ) : Fin 5 → ℝ) (pySetList [3, 1, 1, 2]))))) := by
  have h := C8_selection_dedup_canonical_invalidates (idBMEnv 5) bmStateC8
    [3, 1, 1, 2] (fun _ _ => 0) (fun _ => 0) rfl rfl
  exact ⟨by decide, h.2.2.2.2.1, h.2.2.2.2.2.2.2.1, h.2.2.2.2.2.2.2.2.2⟩

/-- C9: assuming each sampler's individual conversion functions are mutual
inverses, the network-level theo-to-bio conversion followed by bio-to-theo
reproduces every weight matrix exactly (in particular the zero matrix,
asymmetric matrices and matrices with nonzero diagonal — the conversion
itself never touches the diagonal); and the conversion is column-wise:
output column `j` is sampler `j`'s conversion applied to input column `j`,
so columns agreeing in the input agree in the output. -/
theorem C9_roundtrip_columnwise (env : BMEnv ns)
    (hinv : ∀ (j : Fin ns) (v : Fin ns → ℝ),
      env.convBioToTheo j (env.convTheoToBio j v) = v) :
    (∀ w, convert_weights_bio_to_theo env (convert_weights_theo_to_bio env w) = w) ∧
    (∀ w (i j : Fin ns), convert_weights_theo_to_bio env w i j =
      env.convTheoToBio j (fun r => w r j) i) ∧
    (∀ w (i j : Fin ns), convert_weights_bio_to_theo env w i j =
      env.convBioToTheo j (fun r => w r j) i) ∧
    (∀ w w' (j : Fin ns), (∀ r, w r j = w' r j) → ∀ i,
      convert_weights_theo_to_bio env w i j =
        convert_weights_theo_to_bio env w' i j) := by
  refine ⟨?_, fun w i j => rfl, fun w i j => rfl, ?_⟩
  · intro w
    funext i j
    exact congrFun (hinv j fun q => w q j) i
  · intro w w' j hcol i
    show env.convTheoToBio j (fun r => w r j) i = env.convTheoToBio j (fun r => w' r j) i
    rw [show (fun r => w r j) = (fun r => w' r j) from funext hcol]

/-- Witness for C9 with identity per-sampler conversions on a two-sampler
network and the zero matrix. -/
theorem C9_witness :
    convert_weights_bio_to_theo (idBMEnv 2)
      (convert_weights_theo_to_bio (idBMEnv 2) fun _ _ => (0 : ℝ)) =
      (fun _ _ => (0 : ℝ)) ∧
    convert_weights_theo_to_bio (idBMEnv 2) (fun _ _ => (0 : ℝ)) 0 1 =
      (idBMEnv 2).convTheoToBio 1 (fun r => (fun _ _ => (0 : ℝ)) r 1) 0 := by
  have h := C9_roundtrip_columnwise (idBMEnv 2) (fun _ _ => rfl)
  exact ⟨h.1 _, h.2.1 _ 0 1⟩

end SbS
